import Mathlib

/-!
Verification of the Game of Life grid engine (src/src/lib.rs) against its
specification.  The Rust code is shallowly embedded: cells and grids become
Lean structures over `List`, machine indices become `Int`/`Nat`, fallible
spots (a Rust `panic!`, an out-of-range `vec[i]`, a `%` by zero) become
`Option`/`Except` values, and the pseudo-random source of `Game::new` is an
injected stream of booleans (the spec treats random number generation as an
external collaborator supplying boolean values).
-/

set_option autoImplicit false

/-- Rust `struct Cell` (lib.rs lines 31-34): a single boolean attribute. -/
structure Cell where
  alive : Bool
deriving DecidableEq

/-- Rust `struct Game` (lib.rs lines 6-11): row-major cells, a generation
counter (`u64` in Rust, modelled as `Nat`; the counter starts at 0 and only
ever grows by 1 per step, so overflow is unreachable in any real run), and
the wrapping edge-policy flag. -/
structure Game where
  cells : List (List Cell)
  iteration_count : Nat
  wrapping : Bool
deriving DecidableEq

/-- Rust iterator `.enumerate()` starting at `n`: pairs each element with its
index. -/
def enumFrom {α : Type} (n : Nat) : List α → List (Nat × α)
  | [] => []
  | a :: l => (n, a) :: enumFrom (n + 1) l

/-- Rust `.map(f).collect()` where evaluating `f` may panic: the panic of an
element propagates (first failure wins, as a Rust panic would abort the
whole collect). -/
def mapOpt {α β : Type} (f : α → Option β) : List α → Option (List β)
  | [] => some []
  | a :: l => do
    let b ← f a
    let bs ← mapOpt f l
    pure (b :: bs)

/-- Rust `.map(f).collect()` where `f` may panic with a distinguished error:
the first error aborts the whole collect. -/
def mapExc {ε α β : Type} (f : α → Except ε β) : List α → Except ε (List β)
  | [] => .ok []
  | a :: l =>
    match f a with
    | .error e => .error e
    | .ok b =>
      match mapExc f l with
      | .error e => .error e
      | .ok bs => .ok (b :: bs)

/-- Rust `wrap` (lib.rs lines 151-158).  `idx % len` is Rust's truncating
remainder on `i32`, i.e. `Int.tmod`; `len as i32` is assumed not to
overflow (heights fit in `u16` in practice).  A `len` of zero makes the
Rust `%` panic with a division by zero, modelled as `none`. -/
def wrap (idx : Int) (len : Nat) : Option Nat :=
  if len = 0 then none
  else
    let l : Int := len
    if idx < 0 then some (l + Int.tmod idx l).toNat
    else some (Int.tmod idx l).toNat

/-- Rust `get_if_positive` (lib.rs lines 182-188): `vec.get(idx as usize)`
guarded by `idx >= 0`. -/
def get_if_positive {α : Type} (vec : List α) (idx : Int) : Option α :=
  if 0 ≤ idx then vec.get? idx.toNat else none

/-- Rust `get_three_of_row` (lib.rs lines 173-180): the columns `x-1..=x+1`
of a row, out-of-range columns silently dropped (`flatten` on options). -/
def get_three_of_row (x : Nat) (row : List Cell) : List Cell :=
  [(x : Int) - 1, (x : Int), (x : Int) + 1].filterMap (get_if_positive row)

/-- Rust `get_wrapping` (lib.rs lines 141-149): wrap the row index, then
fetch that row (an out-of-range wrapped index yields the empty default).
The `none` case is the division-by-zero panic inside `wrap`. -/
def get_wrapping (cells : List (List Cell)) (x : Nat) (y : Int) : Option (List Cell) :=
  (wrap y cells.length).map fun y_wrapped =>
    ((cells.get? y_wrapped).map fun row => get_three_of_row x row).getD []

/-- Rust `get_or_empty` (lib.rs lines 160-171): non-wrapping row fetch,
negative or out-of-range rows contribute nothing. -/
def get_or_empty (vec : List (List Cell)) (x : Nat) (y : Int) : List Cell :=
  if 0 ≤ y then
    ((vec.get? y.toNat).map fun row => get_three_of_row x row).getD []
  else []

/-- Rust `get_three` (lib.rs lines 133-139). -/
def get_three (game : Game) (x : Nat) (y : Int) : Option (List Cell) :=
  if game.wrapping then get_wrapping game.cells x y
  else some (get_or_empty game.cells x y)

/-- Rust `get_two` (lib.rs lines 123-131): the two same-row neighbours; the
direct index `game.cells[y]` panics when `y` is out of range, hence the
`Option`. -/
def get_two (game : Game) (x y : Nat) : Option (List Cell) :=
  (game.cells.get? y).map fun row =>
    [(x : Int) - 1, (x : Int) + 1].filterMap (get_if_positive row)

/-- Rust `get_neighbours` (lib.rs lines 115-121): previous row, same row and
next row contributions concatenated in that order. -/
def get_neighbours (game : Game) (x y : Nat) : Option (List Cell) := do
  let prev_row ← get_three game x ((y : Int) - 1)
  let next_row ← get_three game x ((y : Int) + 1)
  let same_row ← get_two game x y
  pure (prev_row ++ same_row ++ next_row)

/-- Rust `staying_alive` (lib.rs lines 103-113): the B3/S23 rule on the
count of alive neighbours. -/
def staying_alive (cell : Cell) (neighbours : List Cell) : Bool :=
  let alive_neighbours_count := (neighbours.filter fun c => c.alive).length
  if cell.alive then
    alive_neighbours_count == 2 || alive_neighbours_count == 3
  else
    alive_neighbours_count == 3

/-- Rust `to_cell` (lib.rs lines 191-193). -/
def to_cell (c : Char) : Cell :=
  { alive := c == '#' }

/-- Chars of a string split at every newline character; the auxiliary phase
of Rust `str::lines` (a string with no newline is one piece, so the empty
string gives one empty piece). -/
def splitNl : List Char → List (List Char)
  | [] => [[]]
  | c :: t =>
    if c = '\n' then [] :: splitNl t
    else
      match splitNl t with
      | [] => [[c]]
      | l :: ls => (c :: l) :: ls

/-- Strip one trailing carriage return, as Rust `str::lines` does on every
line that was terminated by a newline. -/
def stripCr (l : List Char) : List Char :=
  if l.getLast? = some '\r' then l.dropLast else l

/-- Second phase of Rust `str::lines`: drop a final empty piece (the
optional final line terminator) and strip a trailing carriage return from
every terminated piece. -/
def rustLinesOf : List (List Char) → List (List Char)
  | [] => []
  | [last] => if last = [] then [] else [last]
  | p :: ps => stripCr p :: rustLinesOf ps

/-- Rust `str::lines` over the characters of the layout string. -/
def rustLines (s : List Char) : List (List Char) :=
  rustLinesOf (splitNl s)

/-- The ways literal construction aborts: the explicit
`layout invalid, all lines need to be of same length` panic
(lib.rs line 64), and the out-of-bounds panic of `lines[0]`
(lib.rs line 59) on a layout with no lines. -/
inductive ConstructError where
  | invalidLayout
  | indexOutOfBounds
deriving DecidableEq

/-- Rust `Game::new` (lib.rs lines 37-55).  The seeded Xoshiro256++ stream
is out of scope per the spec; it is modelled as an injected boolean stream
`bits`, consumed in row-major draw order exactly as the Rust code draws one
value per cell (`bits k` stands for `rng.next_u32() % 2 == 0` at the k-th
draw). -/
def Game.new (width height : Nat) (bits : Nat → Bool) (wrapping : Bool) : Game :=
  { cells :=
      (List.range height).map fun y =>
        (List.range width).map fun x =>
          { alive := bits (y * width + x) }
    iteration_count := 0
    wrapping := wrapping }

/-- Rust `Game::from_specific` (lib.rs lines 57-75): split the layout into
lines, take the first line's length as the width, and map every line to a
row of cells, aborting on any line of a different length. -/
def Game.from_specific (layout : List Char) (wrapping : Bool) : Except ConstructError Game :=
  match (rustLines layout).head? with
  | none => .error .indexOutOfBounds
  | some first =>
    (mapExc (fun line =>
        if line.length = first.length then .ok (line.map to_cell)
        else .error ConstructError.invalidLayout) (rustLines layout)).map
      fun cells => { cells := cells, iteration_count := 0, wrapping := wrapping }

/-- Rust `Game::tick` (lib.rs lines 77-96): a fresh grid whose every cell is
the rule applied to the old cell and its neighbours in the old grid, a
generation counter one higher, and the wrapping flag carried over. -/
def Game.tick (game : Game) : Option Game :=
  (mapOpt (fun p =>
      mapOpt (fun q =>
          (get_neighbours game q.1 p.1).map fun neighbours =>
            ({ alive := staying_alive q.2 neighbours } : Cell))
        (enumFrom 0 p.2))
    (enumFrom 0 game.cells)).map
    fun cells =>
      { cells := cells
        iteration_count := game.iteration_count + 1
        wrapping := game.wrapping }

/-- Rust `Game::row_columns` (lib.rs lines 98-100). -/
def Game.row_columns (game : Game) : List (List Cell) :=
  game.cells

/-- One rendered row of the Rust `Display` impl (lib.rs lines 15-25): each
cell becomes its glyph and the row is terminated by a newline. -/
def renderRow (row : List Cell) : List Char :=
  (row.map fun cell => if cell.alive then '#' else '.') ++ ['\n']

/-- The grid part of the Rust `Display` impl (lib.rs lines 13-29): the
rendering minus its header line. -/
def renderBody (game : Game) : List Char :=
  (game.row_columns.map renderRow).flatten

/-- The full Rust `Display` rendering (lib.rs line 27): header line stating
the generation count, then the grid. -/
def display (game : Game) : List Char :=
  ("iteration ").data ++ (Nat.repr game.iteration_count).data
    ++ [':', '\n'] ++ renderBody game

/-- Iterated stepping, propagating the panic of any step. -/
def stepN : Nat → Game → Option Game
  | 0, game => some game
  | n + 1, game => game.tick >>= stepN n

/-- The cell states reached from a literal layout after a number of steps
(`none` when construction or some step fails). -/
def cellsAfter (layout : List Char) (wr : Bool) (n : Nat) : Option (List (List Cell)) :=
  match Game.from_specific layout wr with
  | .error _ => none
  | .ok g => (stepN n g).map Game.cells

/-- The cell states of the game constructed from a literal layout. -/
def cellsOf (layout : List Char) (wr : Bool) : Option (List (List Cell)) :=
  match Game.from_specific layout wr with
  | .error _ => none
  | .ok g => some g.cells

instance {ε α : Type} [DecidableEq ε] [DecidableEq α] : DecidableEq (Except ε α) := fun
  | .error e, .error f =>
    match decEq e f with
    | isTrue h => isTrue (h ▸ rfl)
    | isFalse h => isFalse fun hh => h (Except.error.inj hh)
  | .error _, .ok _ => isFalse fun hh => Except.noConfusion hh
  | .ok _, .error _ => isFalse fun hh => Except.noConfusion hh
  | .ok a, .ok b =>
    match decEq a b with
    | isTrue h => isTrue (h ▸ rfl)
    | isFalse h => isFalse fun hh => h (Except.ok.inj hh)

/-- Join pieces back with a newline between consecutive pieces (inverse of
`splitNl`). -/
def joinNl : List (List Char) → List Char
  | [] => []
  | [l] => l
  | l :: ls => l ++ '\n' :: joinNl ls

/-- Join lines, terminating every line with a newline: the shape of the
rendered grid body. -/
def bodyJoin (ps : List (List Char)) : List Char :=
  (ps.map fun p => p ++ ['\n']).flatten

/-! ## Generic lemmas about the iterator combinators -/

theorem enumFrom_length {α : Type} (n : Nat) (l : List α) :
    (enumFrom n l).length = l.length := by
  induction l generalizing n with
  | nil => rfl
  | cons a t ih => simp [enumFrom, ih]

theorem enumFrom_get? {α : Type} {l : List α} {i : Nat} {a : α} (n : Nat)
    (h : l.get? i = some a) : (enumFrom n l).get? i = some (n + i, a) := by
  induction l generalizing n i with
  | nil => simp at h
  | cons b t ih =>
    cases i with
    | zero =>
      simp only [List.get?] at h
      cases h
      simp [enumFrom]
    | succ i =>
      have := ih (n := n + 1) (by simpa using h)
      simpa [enumFrom, Nat.add_assoc, Nat.add_comm 1 i] using this

theorem enumFrom_mem {α : Type} {n : Nat} {l : List α} {p : Nat × α}
    (h : p ∈ enumFrom n l) : ∃ k, p.1 = n + k ∧ l.get? k = some p.2 := by
  induction l generalizing n with
  | nil => simp [enumFrom] at h
  | cons b t ih =>
    simp only [enumFrom, List.mem_cons] at h
    rcases h with h | h
    · exact ⟨0, by simp [h]⟩
    · obtain ⟨k, hk1, hk2⟩ := ih h
      exact ⟨k + 1, by omega, by simpa using hk2⟩

theorem mapOpt_isSome {α β : Type} {f : α → Option β} {l : List α}
    (h : ∀ a ∈ l, (f a).isSome) : (mapOpt f l).isSome := by
  induction l with
  | nil => simp [mapOpt]
  | cons a t ih =>
    obtain ⟨b, hb⟩ := Option.isSome_iff_exists.1 (h a (by simp))
    obtain ⟨bs, hbs⟩ :=
      Option.isSome_iff_exists.1 (ih fun x hx => h x (by simp [hx]))
    simp [mapOpt, hb, hbs]

theorem mapOpt_length {α β : Type} {f : α → Option β} :
    ∀ {l : List α} {l' : List β}, mapOpt f l = some l' → l'.length = l.length := by
  intro l
  induction l with
  | nil =>
    intro l' h
    simp [mapOpt] at h
    simp [← h]
  | cons a t ih =>
    intro l' h
    cases hfa : f a with
    | none => simp [mapOpt, hfa] at h
    | some b =>
      cases hml : mapOpt f t with
      | none => simp [mapOpt, hfa, hml] at h
      | some bs =>
        simp [mapOpt, hfa, hml] at h
        simp [← h, ih hml]

theorem mapOpt_get? {α β : Type} {f : α → Option β} :
    ∀ {l : List α} {l' : List β}, mapOpt f l = some l' →
      ∀ {i : Nat} {a : α}, l.get? i = some a →
        ∃ b, f a = some b ∧ l'.get? i = some b := by
  intro l
  induction l with
  | nil => intro l' _ i a h; simp at h
  | cons c t ih =>
    intro l' h i a hget
    cases hfc : f c with
    | none => simp [mapOpt, hfc] at h
    | some b =>
      cases hml : mapOpt f t with
      | none => simp [mapOpt, hfc, hml] at h
      | some bs =>
        simp [mapOpt, hfc, hml] at h
        cases i with
        | zero =>
          simp only [List.get?] at hget
          cases hget
          exact ⟨b, hfc, by simp [← h]⟩
        | succ i =>
          obtain ⟨b', hb1, hb2⟩ := ih hml (by simpa using hget)
          refine ⟨b', hb1, ?_⟩
          rw [← h]
          simpa using hb2

theorem mapExc_error_mem {ε α β : Type} {f : α → Except ε β} {e : ε} :
    ∀ {l : List α}, mapExc f l = .error e → ∃ a ∈ l, f a = .error e := by
  intro l
  induction l with
  | nil => intro h; simp [mapExc] at h
  | cons a t ih =>
    intro h
    cases hfa : f a with
    | error e' =>
      simp [mapExc, hfa] at h
      exact ⟨a, by simp, by rw [hfa, h]⟩
    | ok b =>
      cases hml : mapExc f t with
      | error e' =>
        simp [mapExc, hfa, hml] at h
        obtain ⟨x, hx1, hx2⟩ := ih (by rw [hml, h])
        exact ⟨x, by simp [hx1], hx2⟩
      | ok bs => simp [mapExc, hfa, hml] at h

theorem mapExc_mem_error {ε α β : Type} {f : α → Except ε β} {e : ε}
    (hf : ∀ a, f a = .error e ∨ ∃ b, f a = .ok b) :
    ∀ {l : List α} {a : α}, a ∈ l → f a = .error e → mapExc f l = .error e := by
  intro l
  induction l with
  | nil => intro a h; simp at h
  | cons c t ih =>
    intro a hmem herr
    rcases hf c with hc | ⟨b, hb⟩
    · simp [mapExc, hc]
    · have hat : a ∈ t := by
        rcases List.mem_cons.1 hmem with h | h
        · rw [h] at herr; rw [herr] at hb; cases hb
        · exact h
      have := ih hat herr
      simp [mapExc, hb, this]

theorem mapExc_error_iff {ε α β : Type} {f : α → Except ε β} {e : ε}
    (hf : ∀ a, f a = .error e ∨ ∃ b, f a = .ok b) {l : List α} :
    mapExc f l = .error e ↔ ∃ a ∈ l, f a = .error e := by
  constructor
  · exact mapExc_error_mem
  · rintro ⟨a, ha, he⟩
    exact mapExc_mem_error hf ha he

theorem mapExc_ok_eq_map {ε α β : Type} {f : α → Except ε β} {g : α → β}
    (hfg : ∀ a c, f a = .ok c → c = g a) :
    ∀ {l : List α} {b : List β}, mapExc f l = .ok b → b = l.map g := by
  intro l
  induction l with
  | nil => intro b h; simp [mapExc] at h; simp [← h]
  | cons a t ih =>
    intro b h
    cases hfa : f a with
    | error e => simp [mapExc, hfa] at h
    | ok c =>
      cases hml : mapExc f t with
      | error e => simp [mapExc, hfa, hml] at h
      | ok bs =>
        simp [mapExc, hfa, hml] at h
        simp [← h, ih hml, hfg a c hfa]

/-! ## Totality of the step operation -/

theorem get_three_isSome (game : Game) (x : Nat) (y : Int)
    (h : game.cells.length ≠ 0) : (get_three game x y).isSome := by
  unfold get_three
  by_cases hw : game.wrapping
  · simp only [hw, if_true]
    unfold get_wrapping wrap
    simp only [h, if_false]
    split <;> simp
  · simp [hw]

theorem get_neighbours_isSome (game : Game) (x y : Nat)
    (hy : y < game.cells.length) : (get_neighbours game x y).isSome := by
  have hne : game.cells.length ≠ 0 := by omega
  obtain ⟨p1, hp1⟩ :=
    Option.isSome_iff_exists.1 (get_three_isSome game x ((y : Int) - 1) hne)
  obtain ⟨p2, hp2⟩ :=
    Option.isSome_iff_exists.1 (get_three_isSome game x ((y : Int) + 1) hne)
  obtain ⟨row, hrow⟩ := Option.isSome_iff_exists.1
    (by rw [List.get?_eq_get hy]; simp : (game.cells.get? y).isSome)
  unfold get_neighbours get_two
  have hrow' : game.cells[y]? = some row := by
    rw [← List.get?_eq_getElem?]
    exact hrow
  simp [hp1, hp2, hrow']

theorem tick_isSome (game : Game) : (game.tick).isSome := by
  unfold Game.tick
  have h : (mapOpt (fun p =>
      mapOpt (fun q =>
          (get_neighbours game q.1 p.1).map fun neighbours =>
            ({ alive := staying_alive q.2 neighbours } : Cell))
        (enumFrom 0 p.2))
    (enumFrom 0 game.cells)).isSome := by
    apply mapOpt_isSome
    intro p hp
    obtain ⟨k, hk1, hk2⟩ := enumFrom_mem hp
    have hklt : k < game.cells.length := by
      by_contra hge
      rw [List.get?_eq_none.2 (by omega)] at hk2
      cases hk2
    apply mapOpt_isSome
    intro q _
    obtain ⟨nb, hnb⟩ := Option.isSome_iff_exists.1
      (get_neighbours_isSome game q.1 p.1 (by omega))
    simp [hnb]
  obtain ⟨cells, hc⟩ := Option.isSome_iff_exists.1 h
  simp [hc]

/-! ## Lemmas about line splitting and joining -/

theorem splitNl_nil : splitNl [] = [[]] := rfl

theorem splitNl_cons_nl (t : List Char) : splitNl ('\n' :: t) = [] :: splitNl t := by
  simp [splitNl]

theorem splitNl_cons {c : Char} (hc : c ≠ '\n') (t : List Char)
    {l : List Char} {ls : List (List Char)} (ht : splitNl t = l :: ls) :
    splitNl (c :: t) = (c :: l) :: ls := by
  simp [splitNl, hc, ht]

theorem splitNl_ne_nil (s : List Char) : splitNl s ≠ [] := by
  cases s with
  | nil => simp [splitNl_nil]
  | cons c t =>
    by_cases hc : c = '\n'
    · rw [hc, splitNl_cons_nl]; simp
    · cases ht : splitNl t with
      | nil => exact absurd ht (splitNl_ne_nil t)
      | cons l ls => rw [splitNl_cons hc t ht]; simp

theorem splitNl_eq_single_nil {s : List Char} (h : splitNl s = [[]]) : s = [] := by
  cases s with
  | nil => rfl
  | cons c t =>
    by_cases hc : c = '\n'
    · rw [hc, splitNl_cons_nl] at h
      simp at h
      exact absurd h (splitNl_ne_nil t)
    · cases ht : splitNl t with
      | nil => exact absurd ht (splitNl_ne_nil t)
      | cons l ls =>
        rw [splitNl_cons hc t ht] at h
        simp at h

theorem mem_splitNl {s : List Char} {p : List Char} {c : Char}
    (hp : p ∈ splitNl s) (hc : c ∈ p) : c ∈ s ∧ c ≠ '\n' := by
  induction s generalizing p with
  | nil =>
    rw [splitNl_nil] at hp
    simp at hp
    rw [hp] at hc
    simp at hc
  | cons d t ih =>
    by_cases hd : d = '\n'
    · rw [hd, splitNl_cons_nl] at hp
      rcases List.mem_cons.1 hp with hp' | hp'
      · rw [hp'] at hc; simp at hc
      · obtain ⟨h1, h2⟩ := ih hp' hc
        exact ⟨List.mem_cons_of_mem d h1, h2⟩
    · cases ht : splitNl t with
      | nil => exact absurd ht (splitNl_ne_nil t)
      | cons l ls =>
        rw [splitNl_cons hd t ht] at hp
        rcases List.mem_cons.1 hp with hp' | hp'
        · rw [hp'] at hc
          rcases List.mem_cons.1 hc with hcc | hcc
          · exact ⟨by rw [hcc]; simp, by rw [hcc]; exact hd⟩
          · obtain ⟨h1, h2⟩ := ih (p := l) (by rw [ht]; simp) hcc
            exact ⟨List.mem_cons_of_mem d h1, h2⟩
        · obtain ⟨h1, h2⟩ := ih (p := p) (by rw [ht]; simp [hp']) hc
          exact ⟨List.mem_cons_of_mem d h1, h2⟩

theorem joinNl_splitNl (s : List Char) : joinNl (splitNl s) = s := by
  induction s with
  | nil => simp [splitNl_nil, joinNl]
  | cons c t ih =>
    by_cases hc : c = '\n'
    · cases ht : splitNl t with
      | nil => exact absurd ht (splitNl_ne_nil t)
      | cons l ls =>
        rw [ht] at ih
        rw [hc, splitNl_cons_nl, ht, joinNl, ih]
        · simp
        · simp
    · cases ht : splitNl t with
      | nil => exact absurd ht (splitNl_ne_nil t)
      | cons l ls =>
        rw [ht] at ih
        rw [splitNl_cons hc t ht]
        cases ls with
        | nil =>
          simp only [joinNl] at ih
          simp [joinNl, ih]
        | cons m ms =>
          simp only [joinNl] at ih
          simp only [joinNl]
          rw [List.cons_append, ih]

theorem splitNl_getLast_iff (s : List Char) :
    (splitNl s).getLast? = some [] ↔ s = [] ∨ s.getLast? = some '\n' := by
  induction s with
  | nil => simp [splitNl_nil]
  | cons c t ih =>
    by_cases hc : c = '\n'
    · cases ht : splitNl t with
      | nil => exact absurd ht (splitNl_ne_nil t)
      | cons l ls =>
        rw [ht] at ih
        rw [hc, splitNl_cons_nl, ht, List.getLast?_cons_cons, ih]
        cases t with
        | nil => simp
        | cons d u => simp [List.getLast?_cons_cons]
    · cases ht : splitNl t with
      | nil => exact absurd ht (splitNl_ne_nil t)
      | cons l ls =>
        rw [ht] at ih
        rw [splitNl_cons hc t ht]
        cases ls with
        | nil =>
          constructor
          · intro h; simp at h
          · intro h
            rcases h with h | h
            · exact absurd h (by simp)
            · exfalso
              cases t with
              | nil =>
                simp at h
                exact hc h
              | cons d u =>
                rw [List.getLast?_cons_cons] at h
                have hl : l = [] := by
                  have := ih.2 (Or.inr h)
                  simpa using this
                rw [hl] at ht
                have hdu := splitNl_eq_single_nil ht
                simp at hdu
        | cons m ms =>
          rw [List.getLast?_cons_cons]
          rw [show (m :: ms).getLast? = (l :: m :: ms).getLast? from
            (List.getLast?_cons_cons).symm, ih]
          have htne : t ≠ [] := by
            intro hteq
            rw [hteq, splitNl_nil] at ht
            simp at ht
          cases t with
          | nil => exact absurd rfl htne
          | cons d u => simp [List.getLast?_cons_cons]

theorem rustLinesOf_eq {ps : List (List Char)}
    (h : ∀ p ∈ ps, stripCr p = p) :
    rustLinesOf ps = if ps.getLast? = some [] then ps.dropLast else ps := by
  induction ps with
  | nil => simp [rustLinesOf]
  | cons p qs ih =>
    cases qs with
    | nil =>
      by_cases hp : p = []
      · simp [rustLinesOf, hp]
      · simp [rustLinesOf, hp]
    | cons q rs =>
      have hq : rustLinesOf (p :: q :: rs) = stripCr p :: rustLinesOf (q :: rs) := rfl
      rw [hq, h p (by simp), ih fun x hx => h x (by simp [hx])]
      rw [List.getLast?_cons_cons]
      by_cases hlast : (q :: rs).getLast? = some ([] : List Char)
      · simp only [hlast, if_true]
        rfl
      · simp only [hlast, if_false]

theorem joinNl_append_nil {qs : List (List Char)} (h : qs ≠ []) :
    joinNl (qs ++ [[]]) = joinNl qs ++ ['\n'] := by
  induction qs with
  | nil => exact absurd rfl h
  | cons q rs ih =>
    cases rs with
    | nil => simp [joinNl]
    | cons r ts =>
      have h1 : joinNl ((q :: r :: ts) ++ [[]]) = q ++ '\n' :: joinNl ((r :: ts) ++ [[]]) := rfl
      have h2 : joinNl (q :: r :: ts) = q ++ '\n' :: joinNl (r :: ts) := rfl
      rw [h1, h2, ih (by simp)]
      simp

theorem bodyJoin_eq_joinNl {ps : List (List Char)} (h : ps ≠ []) :
    bodyJoin ps = joinNl ps ++ ['\n'] := by
  induction ps with
  | nil => exact absurd rfl h
  | cons p qs ih =>
    cases qs with
    | nil => simp [bodyJoin, joinNl]
    | cons q rs =>
      have h1 : bodyJoin (p :: q :: rs) = (p ++ ['\n']) ++ bodyJoin (q :: rs) := by
        simp [bodyJoin]
      have h2 : joinNl (p :: q :: rs) = p ++ '\n' :: joinNl (q :: rs) := rfl
      rw [h1, h2, ih (by simp)]
      simp

theorem getLast?_mem_of {α : Type} {l : List α} {a : α}
    (h : l.getLast? = some a) : a ∈ l := by
  induction l with
  | nil => simp at h
  | cons b t ih =>
    cases t with
    | nil =>
      simp at h
      simp [h]
    | cons c u =>
      rw [List.getLast?_cons_cons] at h
      exact List.mem_cons_of_mem b (ih h)

theorem stripCr_of_not_mem {l : List Char} (h : '\r' ∉ l) : stripCr l = l := by
  unfold stripCr
  by_cases hl : l.getLast? = some '\r'
  · exact absurd (getLast?_mem_of hl) h
  · simp [hl]

/-- The rendered-body shape of the split lines of a layout: each line comes
back followed by a newline, which reproduces the layout exactly when the
layout ended with a newline and appends one trailing newline otherwise. -/
theorem bodyJoin_rustLines {s : List Char} (hs : s ≠ []) (hcr : '\r' ∉ s) :
    bodyJoin (rustLines s) =
      s ++ (if s.getLast? = some '\n' then [] else ['\n']) := by
  have hstrip : ∀ p ∈ splitNl s, stripCr p = p := by
    intro p hp
    apply stripCr_of_not_mem
    intro hmem
    exact hcr (mem_splitNl hp hmem).1
  rw [rustLines, rustLinesOf_eq hstrip]
  by_cases hlast : s.getLast? = some '\n'
  · have h1 : (splitNl s).getLast? = some [] :=
      (splitNl_getLast_iff s).2 (Or.inr hlast)
    rw [if_pos h1, if_pos hlast]
    have hne : splitNl s ≠ [] := splitNl_ne_nil s
    have hsplit : (splitNl s).dropLast ++ [[]] = splitNl s := by
      have hg := List.getLast?_eq_getLast (splitNl s) hne
      have hlg : (splitNl s).getLast hne = [] := by
        rw [hg] at h1
        exact Option.some.inj h1
      rw [← hlg]
      exact List.dropLast_append_getLast hne
    have hd_ne : (splitNl s).dropLast ≠ [] := by
      intro h0
      rw [h0] at hsplit
      simp at hsplit
      exact hs (splitNl_eq_single_nil hsplit.symm)
    rw [bodyJoin_eq_joinNl hd_ne, ← joinNl_append_nil hd_ne, hsplit,
      joinNl_splitNl]
    simp
  · have h1 : (splitNl s).getLast? ≠ some [] := by
      intro h
      rcases (splitNl_getLast_iff s).1 h with h' | h'
      · exact hs h'
      · exact hlast h'
    rw [if_neg h1, if_neg hlast,
      bodyJoin_eq_joinNl (splitNl_ne_nil s), joinNl_splitNl]

/-! ## Lemmas about literal construction -/

theorem exceptMap_ok {ε α β : Type} {f : α → β} {e : Except ε α} {b : β}
    (h : e.map f = .ok b) : ∃ a, e = .ok a ∧ b = f a := by
  cases e with
  | error err => simp [Except.map] at h
  | ok a =>
    simp [Except.map] at h
    exact ⟨a, rfl, h.symm⟩

theorem exceptMap_error {ε α β : Type} {f : α → β} {e : Except ε α} {err : ε} :
    e.map f = .error err ↔ e = .error err := by
  cases e <;> simp [Except.map]

theorem from_specific_ok {layout : List Char} {w : Bool} {g : Game}
    (h : Game.from_specific layout w = .ok g) :
    g.cells = (rustLines layout).map (fun l => l.map to_cell)
      ∧ g.iteration_count = 0 ∧ g.wrapping = w := by
  unfold Game.from_specific at h
  cases hh : (rustLines layout).head? with
  | none =>
    rw [hh] at h
    exact Except.noConfusion h
  | some first =>
    rw [hh] at h
    obtain ⟨cells, hc, hg⟩ := exceptMap_ok h
    have hcells : cells = (rustLines layout).map fun l => l.map to_cell :=
      mapExc_ok_eq_map
        (fun a c hac => by
          by_cases hl : a.length = first.length
          · rw [if_pos hl] at hac
            exact (Except.ok.inj hac).symm
          · rw [if_neg hl] at hac
            exact Except.noConfusion hac)
        hc
    rw [hg]
    exact ⟨hcells, rfl, rfl⟩

theorem from_specific_nil (w : Bool) :
    Game.from_specific [] w = .error ConstructError.indexOutOfBounds := rfl

/-! ## The claims -/

/-- C1.  In wrapping mode the spec claims both the row and the column index
of every neighbour position are reduced with a true mathematical modulo, so
that index −1 maps to the last row/column.  The code contradicts this:
`wrap (-1) 1` evaluates to `1` (not `0`, the mathematical `-1 mod 1`), an
out-of-range row that is then silently dropped; and column indices are
never wrapped at all — on the 2×2 wrapping grid `.#` / `..` the cell (0,0)
receives only 5 neighbour contributions (the three column−(−1) positions
are dropped instead of wrapping to column 1), where the claimed rule would
give 8. -/
theorem c1_wrap_modulo_violated :
    wrap (-1) 1 = some 1
      ∧ (get_neighbours
          { cells := [[{ alive := false }, { alive := true }],
                      [{ alive := false }, { alive := false }]],
            iteration_count := 0, wrapping := true } 0 0).map List.length
        = some 5 := by
  constructor
  · decide
  · decide

/-- C2.  The spec claims every cell has exactly 8 neighbour contributions in
wrapping mode, in particular on a 1×1 grid.  In the code the single cell of
a 1×1 wrapping grid receives exactly one contribution (itself, through the
row-below wrap; the row above wraps to the out-of-range index 1 and is
dropped, and columns never wrap) — though the 1×1 case indeed does not
crash: `tick` succeeds. -/
theorem c2_eight_neighbours_violated :
    get_neighbours
        { cells := [[{ alive := true }]], iteration_count := 0, wrapping := true } 0 0
      = some [{ alive := true }]
      ∧ (Game.tick
          { cells := [[{ alive := true }]], iteration_count := 0,
            wrapping := true }).isSome := by
  constructor
  · decide
  · decide

/-- C4.  A 3-cell vertical blinker becomes a 3-cell horizontal line after
one step and returns to vertical after two steps, both on a 5×5
non-wrapping grid in the interior and on a 5×5 wrapping grid where the
vertical line spans the top/bottom edge so that its update needs
wrap-around neighbour contributions. -/
theorem c4_blinker_period_two :
    (cellsAfter ((".....\n..#..\n..#..\n..#..\n.....").data) false 1
        = cellsOf ((".....\n.....\n.###.\n.....\n.....").data) false
      ∧ cellsAfter ((".....\n..#..\n..#..\n..#..\n.....").data) false 2
        = cellsOf ((".....\n..#..\n..#..\n..#..\n.....").data) false)
    ∧ (cellsAfter (("..#..\n..#..\n.....\n.....\n..#..").data) true 1
        = cellsOf ((".###.\n.....\n.....\n.....\n.....").data) true
      ∧ cellsAfter (("..#..\n..#..\n.....\n.....\n..#..").data) true 2
        = cellsOf (("..#..\n..#..\n.....\n.....\n..#..").data) true) := by
  exact ⟨⟨by decide, by decide⟩, by decide, by decide⟩

/-- C5.  Literal construction aborts with the invalid-layout error exactly
when some line of the layout has a character count different from the first
line's; in that case the result is the error alone, no game value. -/
theorem c5_invalid_layout_iff (layout : List Char) (w : Bool) :
    Game.from_specific layout w = .error ConstructError.invalidLayout ↔
      ∃ l ∈ rustLines layout,
        l.length ≠ ((rustLines layout).headD []).length := by
  cases hh : (rustLines layout).head? with
  | none =>
    have hnil : rustLines layout = [] := by
      cases hx : rustLines layout with
      | nil => rfl
      | cons a t => rw [hx] at hh; simp at hh
    have hfs : Game.from_specific layout w = .error .indexOutOfBounds := by
      unfold Game.from_specific
      rw [hh]
    rw [hfs, hnil]
    simp
  | some first =>
    have hD : (rustLines layout).headD [] = first := by
      cases hx : rustLines layout with
      | nil => rw [hx] at hh; simp at hh
      | cons a t =>
        rw [hx] at hh
        simp at hh
        simp [hh]
    have hfs : Game.from_specific layout w =
        (mapExc (fun line =>
            if line.length = first.length then .ok (line.map to_cell)
            else .error ConstructError.invalidLayout) (rustLines layout)).map
          (fun cells =>
            { cells := cells, iteration_count := 0, wrapping := w }) := by
      unfold Game.from_specific
      rw [hh]
    have hf : ∀ a : List Char,
        (if a.length = first.length then
            Except.ok (ε := ConstructError) (a.map to_cell)
          else .error ConstructError.invalidLayout)
          = .error ConstructError.invalidLayout
        ∨ ∃ b, (if a.length = first.length then
            Except.ok (ε := ConstructError) (a.map to_cell)
          else .error ConstructError.invalidLayout) = .ok b := by
      intro a
      by_cases h : a.length = first.length
      · right; exact ⟨a.map to_cell, by rw [if_pos h]⟩
      · left; rw [if_neg h]
    rw [hfs, hD, exceptMap_error, mapExc_error_iff hf]
    apply exists_congr
    intro a
    constructor
    · rintro ⟨ha, herr⟩
      refine ⟨ha, fun hlen => ?_⟩
      rw [if_pos hlen] at herr
      exact Except.noConfusion herr
    · rintro ⟨ha, hne⟩
      exact ⟨ha, by rw [if_neg hne]⟩

/-- C10.  Literal construction on the empty layout fails with the
out-of-bounds abort of the first-line access, a failure distinct from the
invalid-layout error, rather than producing an empty grid. -/
theorem c10_empty_layout_oob (w : Bool) :
    Game.from_specific [] w = .error ConstructError.indexOutOfBounds
      ∧ ConstructError.indexOutOfBounds ≠ ConstructError.invalidLayout :=
  ⟨from_specific_nil w, by decide⟩

/-- C6 (counterexample).  The layout consisting of the single glyph `#`
(no trailing line break) does construct a game, but its rendering outside
the header line is the glyph followed by a line break — not the layout
verbatim. -/
theorem c6_roundtrip_counterexample :
    ∃ g : Game, Game.from_specific ['#'] false = .ok g
      ∧ renderBody g ≠ ['#'] := by
  refine ⟨{ cells := [[{ alive := true }]], iteration_count := 0,
            wrapping := false }, ?_, ?_⟩
  · decide
  · decide

/-- C6 (amended).  For every layout over the glyphs `#`, `.` and line
breaks from which construction succeeds, the rendering outside the header
line reproduces the layout with every line terminated by a line break:
verbatim exactly when the layout itself ends with a line break, and with
one trailing line break appended otherwise. -/
theorem c6_amended_roundtrip (layout : List Char) (w : Bool) (g : Game)
    (hchars : ∀ c ∈ layout, c = '#' ∨ c = '.' ∨ c = '\n')
    (hok : Game.from_specific layout w = .ok g) :
    renderBody g =
      layout ++ (if layout.getLast? = some '\n' then [] else ['\n']) := by
  obtain ⟨hcells, _, _⟩ := from_specific_ok hok
  have hne : layout ≠ [] := by
    intro h0
    rw [h0, from_specific_nil] at hok
    exact Except.noConfusion hok
  have hcr : '\r' ∉ layout := by
    intro hmem
    rcases hchars _ hmem with h | h | h <;> simp at h
  have hstrip : ∀ p ∈ splitNl layout, stripCr p = p := by
    intro p hp
    apply stripCr_of_not_mem
    intro hmem
    exact hcr (mem_splitNl hp hmem).1
  have hmem_lines : ∀ l ∈ rustLines layout, l ∈ splitNl layout := by
    intro l hl
    rw [rustLines, rustLinesOf_eq hstrip] at hl
    by_cases hc : (splitNl layout).getLast? = some ([] : List Char)
    · rw [if_pos hc] at hl
      exact List.mem_of_mem_dropLast hl
    · rw [if_neg hc] at hl
      exact hl
  have hglyph : ∀ l ∈ rustLines layout, (l.map to_cell).map
      (fun cell => if cell.alive then '#' else '.') = l := by
    intro l hl
    rw [List.map_map]
    have : ∀ c ∈ l, ((fun cell => if cell.alive then '#' else '.') ∘ to_cell) c
        = id c := by
      intro c hc
      have hmem := (mem_splitNl (hmem_lines l hl) hc).1
      have hnl := (mem_splitNl (hmem_lines l hl) hc).2
      rcases hchars c hmem with h | h | h
      · rw [h]; rfl
      · rw [h]; rfl
      · exact absurd h hnl
    rw [List.map_congr_left this, List.map_id]
  have hbody : renderBody g = bodyJoin (rustLines layout) := by
    rw [renderBody, Game.row_columns, hcells, bodyJoin, List.map_map]
    congr 1
    apply List.map_congr_left
    intro l hl
    show renderRow (l.map to_cell) = l ++ ['\n']
    rw [renderRow, hglyph l hl]
  rw [hbody]
  exact bodyJoin_rustLines hne hcr

/-- Witness for the amended C6 at the layout `#` followed by a line break:
construction succeeds and the rendered body is exactly that layout. -/
theorem c6_amended_roundtrip_witness :
    (∀ c ∈ ("#\n").data, c = '#' ∨ c = '.' ∨ c = '\n')
      ∧ Game.from_specific (("#\n").data) false
          = .ok (Game.mk [[Cell.mk true]] 0 false)
      ∧ renderBody (Game.mk [[Cell.mk true]] 0 false)
        = ("#\n").data
          ++ (if ("#\n").data.getLast? = some '\n' then [] else ['\n']) :=
  ⟨by decide, by decide,
    c6_amended_roundtrip (("#\n").data) false
      (Game.mk [[Cell.mk true]] 0 false)
      (by decide) (by decide)⟩

/-- C3.  For every game whose old grid holds a cell at (x, y), the step
produces a grid whose cell at (x, y) is determined solely by that old cell
and the alive count of its neighbour list in the old grid: an alive cell
stays alive iff the count is 2 or 3, a dead cell becomes alive iff the
count is 3. -/
theorem c3_life_rule (g : Game) (x y : Nat) (row : List Cell) (old : Cell)
    (hrow : g.cells.get? y = some row) (hold : row.get? x = some old) :
    ∃ g' nb row', Game.tick g = some g'
      ∧ get_neighbours g x y = some nb
      ∧ g'.cells.get? y = some row'
      ∧ row'.get? x = some (Cell.mk
          (if old.alive then
            (nb.filter fun c => c.alive).length == 2
              || (nb.filter fun c => c.alive).length == 3
          else (nb.filter fun c => c.alive).length == 3)) := by
  have hy : y < g.cells.length := by
    by_contra hge
    rw [List.get?_eq_none.2 (by omega)] at hrow
    cases hrow
  obtain ⟨nb, hnb⟩ :=
    Option.isSome_iff_exists.1 (get_neighbours_isSome g x y hy)
  obtain ⟨g', htick⟩ := Option.isSome_iff_exists.1 (tick_isSome g)
  have htick' := htick
  unfold Game.tick at htick'
  obtain ⟨cellss, hcs, hgdef⟩ := Option.map_eq_some'.1 htick'
  obtain ⟨rowRes, hf, hcellsy⟩ :=
    mapOpt_get? hcs (by simpa using enumFrom_get? (l := g.cells) 0 hrow)
  obtain ⟨b, hfb, hrowx⟩ :=
    mapOpt_get? hf (by simpa using enumFrom_get? (l := row) 0 hold)
  rw [hnb] at hfb
  simp only [Option.map_some'] at hfb
  refine ⟨g', nb, rowRes, htick, hnb, ?_, ?_⟩
  · rw [← hgdef]
    exact hcellsy
  · rw [hrowx, ← hfb]
    simp [staying_alive]

/-- Witness for C3: the 2×2 game with three alive cells, at cell (0, 0). -/
theorem c3_life_rule_witness :
    ((Game.mk [[Cell.mk true, Cell.mk true], [Cell.mk true, Cell.mk false]]
        0 false).cells.get? 0 = some [Cell.mk true, Cell.mk true]
      ∧ ([Cell.mk true, Cell.mk true] : List Cell).get? 0 = some (Cell.mk true))
    ∧ ∃ g' nb row',
        Game.tick (Game.mk
          [[Cell.mk true, Cell.mk true], [Cell.mk true, Cell.mk false]]
          0 false) = some g'
        ∧ get_neighbours (Game.mk
            [[Cell.mk true, Cell.mk true], [Cell.mk true, Cell.mk false]]
            0 false) 0 0 = some nb
        ∧ g'.cells.get? 0 = some row'
        ∧ row'.get? 0 = some (Cell.mk
            (if (Cell.mk true).alive then
              (nb.filter fun c => c.alive).length == 2
                || (nb.filter fun c => c.alive).length == 3
            else (nb.filter fun c => c.alive).length == 3)) :=
  ⟨⟨by decide, by decide⟩,
    c3_life_rule
      (Game.mk [[Cell.mk true, Cell.mk true], [Cell.mk true, Cell.mk false]]
        0 false)
      0 0 [Cell.mk true, Cell.mk true] (Cell.mk true)
      (by decide) (by decide)⟩

/-- C7.  A randomly constructed game has exactly `height` rows each of
length `width`, for every pair of dimensions including zero, and a step
preserves the number of rows and the length of every row. -/
theorem c7_dimensions (w h : Nat) (bits : Nat → Bool) (wr : Bool)
    (g g' : Game) (hstep : Game.tick g = some g') :
    ((Game.new w h bits wr).cells.length = h
      ∧ ∀ row ∈ (Game.new w h bits wr).cells, row.length = w)
    ∧ (g'.cells.length = g.cells.length
      ∧ ∀ i row row', g.cells.get? i = some row → g'.cells.get? i = some row' →
          row'.length = row.length) := by
  have hstep' := hstep
  unfold Game.tick at hstep'
  obtain ⟨cellss, hcs, hgdef⟩ := Option.map_eq_some'.1 hstep'
  have hgc : g'.cells = cellss := by rw [← hgdef]
  refine ⟨⟨by simp [Game.new], ?_⟩, ?_, ?_⟩
  · intro row hrow
    simp only [Game.new, List.mem_map] at hrow
    obtain ⟨yy, _, hrow⟩ := hrow
    rw [← hrow]
    simp
  · rw [hgc, mapOpt_length hcs, enumFrom_length]
  · intro i row row' hr hr'
    obtain ⟨rowRes, hfr, hcy⟩ :=
      mapOpt_get? hcs (by simpa using enumFrom_get? (l := g.cells) 0 hr)
    rw [hgc] at hr'
    rw [hcy] at hr'
    have hrr : row' = rowRes := (Option.some.inj hr').symm
    rw [hrr, mapOpt_length hfr, enumFrom_length]

/-- Witness for C7: dimensions 2×3 and a concrete 1×1 step. -/
theorem c7_dimensions_witness :
    Game.tick (Game.mk [[Cell.mk true]] 0 false)
        = some (Game.mk [[Cell.mk false]] 1 false)
      ∧ (((Game.new 2 3 (fun _ => true) false).cells.length = 3
          ∧ ∀ row ∈ (Game.new 2 3 (fun _ => true) false).cells,
              row.length = 2)
        ∧ ((Game.mk [[Cell.mk false]] 1 false).cells.length
              = (Game.mk [[Cell.mk true]] 0 false).cells.length
          ∧ ∀ i row row',
              (Game.mk [[Cell.mk true]] 0 false).cells.get? i = some row →
              (Game.mk [[Cell.mk false]] 1 false).cells.get? i = some row' →
                row'.length = row.length)) :=
  ⟨by decide,
    c7_dimensions 2 3 (fun _ => true) false
      (Game.mk [[Cell.mk true]] 0 false)
      (Game.mk [[Cell.mk false]] 1 false) (by decide)⟩

/-- C8.  A step increments the generation count by exactly 1 and carries
the wrapping flag unchanged; both constructors start the count at 0; and a
step leaves the old state untouched, the old and new state differing only
in generation count and cell states. -/
theorem c8_step_frame (g g' : Game) (hstep : Game.tick g = some g') :
    (g'.iteration_count = g.iteration_count + 1 ∧ g'.wrapping = g.wrapping)
    ∧ (∀ (w h : Nat) (bits : Nat → Bool) (wr : Bool),
        (Game.new w h bits wr).iteration_count = 0)
    ∧ ∀ (layout : List Char) (wr : Bool) (g0 : Game),
        Game.from_specific layout wr = .ok g0 → g0.iteration_count = 0 := by
  refine ⟨?_, fun w h bits wr => rfl,
    fun layout wr g0 h0 => (from_specific_ok h0).2.1⟩
  unfold Game.tick at hstep
  obtain ⟨cellss, hcs, hgdef⟩ := Option.map_eq_some'.1 hstep
  rw [← hgdef]
  exact ⟨rfl, rfl⟩

/-- Witness for C8: a concrete 1×1 step. -/
theorem c8_step_frame_witness :
    Game.tick (Game.mk [[Cell.mk true]] 0 false)
        = some (Game.mk [[Cell.mk false]] 1 false)
      ∧ (((Game.mk [[Cell.mk false]] 1 false).iteration_count
            = (Game.mk [[Cell.mk true]] 0 false).iteration_count + 1
          ∧ (Game.mk [[Cell.mk false]] 1 false).wrapping
            = (Game.mk [[Cell.mk true]] 0 false).wrapping)
        ∧ (∀ (w h : Nat) (bits : Nat → Bool) (wr : Bool),
            (Game.new w h bits wr).iteration_count = 0)
        ∧ ∀ (layout : List Char) (wr : Bool) (g0 : Game),
            Game.from_specific layout wr = .ok g0 →
              g0.iteration_count = 0) :=
  ⟨by decide,
    c8_step_frame (Game.mk [[Cell.mk true]] 0 false)
      (Game.mk [[Cell.mk false]] 1 false) (by decide)⟩

/-- C9.  No core operation beyond literal construction can fail: the step
operation succeeds on every game whatsoever (in particular it never indexes
out of range and never takes a modulo by zero), and random construction is
total, yielding the empty grid at dimensions 0×0. -/
theorem c9_no_failure :
    (∀ g : Game, (Game.tick g).isSome)
      ∧ ∀ (bits : Nat → Bool) (wr : Bool),
          (Game.new 0 0 bits wr).cells = [] :=
  ⟨tick_isSome, fun _ _ => rfl⟩
